import Mathlib

/-
Verification of the phosphor-di registration/resolution engine
(src/src/index.ts) via a shallow embedding in Lean 4.

Conventions of the embedding:
* TS reference identity of `Token` objects is modelled by structural
  equality on a `tid : Nat` field: two tokens created separately get
  distinct ids, tokens with equal names but distinct ids are distinct.
* The registry `Map<Token, IResolver>` is an association list with
  insert-only discipline (`register` checks `has` before `set`, and
  nothing ever deletes), looked up by first match.
* The unbounded recursion of the inner `visit` of `findCycle` is embedded
  with explicit fuel; a `none` result models the TS recursion not
  terminating.  `register` therefore returns an `Option`: `none` models
  divergence of the cycle check.
* Asynchronous resolution is embedded twice, each view faithful to one
  aspect of the source:
  - an event-level state machine for `SingletonResolver`, whose states
    are the resolver's fields (`_value`, `_resolved`, `_promise`) and
    whose events are a resolve call, and success/failure of the
    in-flight creation (the two `.then` handlers at lines 329-337);
  - a sequential (synchronous-projection) semantics of
    `resolveToken`/`resolveFactory` instrumented with the list of
    `create` invocations, for the per-call functional claims.
-/

namespace PhosphorDI

/-- Lifetime enum from the source: registration lifetime policies. -/
inductive Lifetime where
  | Singleton
  | Transient
deriving DecidableEq, Repr

/-- Run-time token: reference identity modelled by `tid`, plus the
human readable diagnostic `name`. -/
structure Token where
  tid : Nat
  name : String
deriving DecidableEq, Repr

/-- Values produced by factories, abstracted as naturals. -/
abbrev Value := Nat

/-- Errors carried by a failed (rejected) computation. -/
inductive Err where
  | unregistered (name : String)
  | creation (code : Nat)
deriving DecidableEq, Repr

/-- Factory descriptor from the source: an optional lifetime
(undefined defaults to Singleton in `createResolver`), the ordered
dependency list, and the creation operation.  `createId` models the
identity of the `create` function, used to count its invocations. -/
structure IFactory where
  lifetime : Option Lifetime
  requires : List Token
  createId : Nat
  create : List Value → Except Err Value

/-- Resolver variants: transient carries no state beyond its factory;
the singleton cache state is modelled separately (see below). -/
inductive Resolver where
  | transient (factory : IFactory)
  | singleton (factory : IFactory)

/-- The factory managed by a resolver (the `factory` getter). -/
def Resolver.factory : Resolver → IFactory
  | .transient f => f
  | .singleton f => f

/-- Registry type alias: `Map<Token, IResolver>` as an assoc list. -/
abbrev Registry := List (Token × Resolver)

/-- Lookup in the registry (`registry.get`), first match wins; the
insert-only discipline keeps keys unique. -/
def regLookup (R : Registry) (t : Token) : Option Resolver :=
  match R with
  | [] => none
  | (u, r) :: rest => if u = t then some r else regLookup rest t

/-- Diagnostics emitted on the console channel by `register`. -/
inductive Diag where
  | duplicateReg (name : String)
  | cycleReg (name : String) (path : List Token)

/-- Loop body of the inner `visit` of `findCycle` (source lines
215-228), abstracted over the recursive descent.  The result is
`none` when the descent reports nontermination, `some none` when the
loop exhausted `reqs` without a cycle, and `some (some p)` when a
cycle trace `p` was found.  The trace is built as in the source:
push the dependency, stop at identity with `token`, otherwise descend
into registered resolvers and propagate the first hit, popping on
failure. -/
def visitGo (R : Registry) (token : Token)
    (descend : List Token → Option (Option (List Token))) :
    List Token → Option (Option (List Token))
  | [] => some none
  | other :: rest =>
    if other = token then
      some (some [other])
    else
      match regLookup R other with
      | some resolver =>
        match descend resolver.factory.requires with
        | none => none
        | some (some path) => some (some (other :: path))
        | some none => visitGo R token descend rest
      | none => visitGo R token descend rest

/-- Fuelled embedding of the inner `visit` of `findCycle`: fuel is
spent on each descent into a registered resolver, and running out of
fuel (`none`) models the unbounded TS recursion failing to
terminate. -/
def visit (R : Registry) (token : Token) :
    Nat → List Token → Option (Option (List Token))
  | 0, _ => none
  | fuel + 1, reqs => visitGo R token (visit R token fuel) reqs

/-- Fuel supplied to `visit`: adequate for every registry reachable
through `register` (proved below for acyclic registries). -/
def cycleFuel (R : Registry) : Nat := R.length + 2

/-- Embedding of `findCycle` (source lines 210-229): empty list when
no cycle, the trace otherwise; `none` models divergence. -/
def findCycle (R : Registry) (token : Token) (factory : IFactory) :
    Option (List Token) :=
  match visit R token (cycleFuel R) factory.requires with
  | none => none
  | some none => some []
  | some (some path) => some path

/-- Embedding of `createResolver` (source lines 261-269): transient
resolver exactly when the lifetime field is `Transient`, singleton
by default. -/
def createResolver (factory : IFactory) : Resolver :=
  if factory.lifetime = some Lifetime.Transient then
    Resolver.transient factory
  else
    Resolver.singleton factory

/-- Embedding of `Container.isRegistered` (source lines 97-99). -/
def Container.isRegistered (R : Registry) (t : Token) : Bool :=
  (regLookup R t).isSome

/-- Embedding of `Container.register` (source lines 113-124): result
is the new registry plus the diagnostic emitted, if any; `none`
models a diverging cycle check. -/
def Container.register (R : Registry) (token : Token) (factory : IFactory) :
    Option (Registry × Option Diag) :=
  if (regLookup R token).isSome then
    some (R, some (Diag.duplicateReg token.name))
  else
    match findCycle R token factory with
    | none => none
    | some cycle =>
      if cycle.length > 0 then
        some (R, some (Diag.cycleReg token.name cycle))
      else
        some ((token, createResolver factory) :: R, none)

/-- Registries reachable from a fresh container by `register` calls. -/
inductive Reachable : Registry → Prop where
  | empty : Reachable []
  | step {R R' : Registry} {t : Token} {f : IFactory} {d : Option Diag}
      (hR : Reachable R)
      (hreg : Container.register R t f = some (R', d)) : Reachable R'

/-- Dependency edge among the registry: `a` is registered and `b`
appears in the `requires` of its bound factory. -/
def EdgeStep (R : Registry) (a b : Token) : Prop :=
  ∃ res, regLookup R a = some res ∧ b ∈ res.factory.requires

/-- Nonempty chains of dependency edges; `l` lists the intermediate
nodes strictly between the endpoints. -/
inductive EdgeChain (R : Registry) : Token → List Token → Token → Prop where
  | single {a c : Token} (h : EdgeStep R a c) : EdgeChain R a [] c
  | cons {a b c : Token} {l : List Token} (h : EdgeStep R a b)
      (hc : EdgeChain R b l c) : EdgeChain R a (b :: l) c

/-- Acyclicity of the requires graph over registered tokens. -/
def Acyclic (R : Registry) : Prop := ∀ t l, ¬ EdgeChain R t l t

/-- Paths of requires edges as discovered by the cycle search: from a
dependency list `reqs`, choosing index `i` at each level, descending
only through registered tokens, ending at the first occurrence of
`token`.  The index list records the choices, the token list the
visited trace. -/
inductive PathFrom (R : Registry) (token : Token) :
    List Token → List Nat → List Token → Prop where
  | hit {reqs : List Token} {i : Nat}
      (hi : reqs[i]? = some token) :
      PathFrom R token reqs [i] [token]
  | descend {reqs : List Token} {i : Nat} {other : Token} {res : Resolver}
      {is : List Nat} {p : List Token}
      (hi : reqs[i]? = some other) (hne : other ≠ token)
      (hreg : regLookup R other = some res)
      (hp : PathFrom R token res.factory.requires is p) :
      PathFrom R token reqs (i :: is) (other :: p)

/-- Discovery order of the depth-first search: a path is found no
later than another when its list of per-level indices is equal or
lexicographically smaller (a proper prefix counts as smaller, and the
check at a node happens before descending below it). -/
def IdxLe (is js : List Nat) : Prop :=
  is = js ∨ List.Lex (· < ·) is js

/-- Descent chains of the cycle search: starting from a dependency
list, each chain element is registered and each next element belongs
to the previous element's factory requires.  Used to bound the fuel
the search needs. -/
inductive DChain (R : Registry) : List Token → List Token → Prop where
  | nil {reqs : List Token} : DChain R reqs []
  | cons {reqs l : List Token} {a : Token} {res : Resolver}
      (h : a ∈ reqs) (hres : regLookup R a = some res)
      (hc : DChain R res.factory.requires l) : DChain R reqs (a :: l)

/-
Event-level state machine of `SingletonResolver` (source lines
304-345).  The state is the resolver's three mutable fields; the
in-flight promise `this._promise` is identified by a `pid : Nat`, the
promise object all concurrent callers share.  Events are a call to
`resolve` (with a fresh pid for the promise it may build) and the
settlement of the in-flight creation, which runs the corresponding
`.then` handler (lines 329-337).  Settlement events fire only while a
promise is in flight, since a handler runs exactly once, at the
settlement of the promise it was attached to.
-/

/-- Mutable fields of a `SingletonResolver`: `_value` (null
initially), `_resolved`, and `_promise` (pid of the shared in-flight
promise, null when absent). -/
structure SingletonState (V : Type) where
  value : Option V
  resolved : Bool
  promise : Option Nat
deriving DecidableEq, Repr

/-- Field initializers of `SingletonResolver` (lines 341-344). -/
def SingletonState.initial (V : Type) : SingletonState V :=
  ⟨none, false, none⟩

/-- What a call to `SingletonResolver.resolve` hands back: the cached
`this._value`, the already in-flight `this._promise`, or a freshly
started creation promise. -/
inductive SingReturn (V : Type) where
  | cached (v : Option V)
  | shared (pid : Nat)
  | started (pid : Nat)
deriving DecidableEq, Repr

/-- Embedding of `SingletonResolver.resolve` (lines 322-339): check
`_resolved` first, then `_promise`, else start the creation, store
the new promise and return it. -/
def SingletonState.resolveStep (s : SingletonState V) (fresh : Nat) :
    SingReturn V × SingletonState V :=
  if s.resolved then
    (SingReturn.cached s.value, s)
  else
    match s.promise with
    | some p => (SingReturn.shared p, s)
    | none => (SingReturn.started fresh, { s with promise := some fresh })

/-- Events observable by a singleton resolver: a `resolve` call, and
success/failure of the in-flight creation. -/
inductive SEvent (V : Type) where
  | resolveCall (fresh : Nat)
  | succeed (v : V)
  | fail
deriving DecidableEq, Repr

/-- Success handler (lines 330-333): cache the value, clear the
pending marker, mark resolved, pass the value through. -/
def SingletonState.onSuccess (_s : SingletonState V) (v : V) : SingletonState V :=
  ⟨some v, true, none⟩

/-- Failure handler (lines 334-336): clear the pending marker and
rethrow, leaving `_value` and `_resolved` untouched. -/
def SingletonState.onFailure (s : SingletonState V) : SingletonState V :=
  { s with promise := none }

/-- One event step.  Settlement events are no-ops when no promise is
in flight (such events cannot occur: the handlers only run at the
settlement of the promise they were attached to). -/
def SingletonState.stepEvent (s : SingletonState V) : SEvent V → SingletonState V
  | SEvent.resolveCall fresh => (s.resolveStep fresh).2
  | SEvent.succeed v => if s.promise.isSome then s.onSuccess v else s
  | SEvent.fail => if s.promise.isSome then s.onFailure else s

/-- Whether an event makes this state start a new creation attempt,
i.e. the `resolve` call reaches the `resolveFactory` call. -/
def SingletonState.isStart (s : SingletonState V) : SEvent V → Bool
  | SEvent.resolveCall fresh =>
    match (s.resolveStep fresh).1 with
    | SingReturn.started _ => true
    | _ => false
  | _ => false

/-- Number of creation attempts started along a trace of events. -/
def startsOf (s : SingletonState V) : List (SEvent V) → Nat
  | [] => 0
  | e :: es => (if s.isStart e then 1 else 0) + startsOf (s.stepEvent e) es

/-- End state after a trace of events. -/
def runEvents (s : SingletonState V) : List (SEvent V) → SingletonState V
  | [] => s
  | e :: es => runEvents (s.stepEvent e) es

/-- The three phases of the singleton state machine, read off the
fields in the order `resolve` checks them. -/
inductive Phase where
  | unresolvedP
  | pendingP
  | resolvedP
deriving DecidableEq, Repr

/-- Phase of a state: `_resolved` wins, then an in-flight promise. -/
def SingletonState.phase (s : SingletonState V) : Phase :=
  if s.resolved then Phase.resolvedP
  else if s.promise.isSome then Phase.pendingP
  else Phase.unresolvedP

/-
Sequential (synchronous-projection) semantics of the resolution
algorithm (`resolveToken`, `resolveFactory`, lines 235-255, and the
resolver `resolve` methods).  Each dependency promise settles before
the next synchronous step, so a singleton's pending state is never
observed here; its cache (`_value`/`_resolved`, keyed by the unique
token bound to the resolver) is threaded through explicitly, together
with the instrumentation list of `create` invocations.  Fuel bounds
the recursion through the registry; `none` models divergence (which
the cycle rejection in `register` rules out for real containers).
-/

/-- Threaded resolution state: singleton caches (one per registered
token) plus the instrumentation trace of invoked `createId`s. -/
structure ResState where
  cache : List (Token × Value)
  events : List Nat
deriving DecidableEq, Repr

/-- Lookup of a singleton cache entry. -/
def cacheLookup (c : List (Token × Value)) (t : Token) : Option Value :=
  match c with
  | [] => none
  | (u, v) :: rest => if u = t then some v else cacheLookup rest t

/-- Join of the dependency results, mirroring `Promise.all`: the
values in order when all succeed, else the first failure. -/
def allOk : List (Except Err Value) → Except Err (List Value)
  | [] => Except.ok []
  | Except.ok v :: rest =>
    match allOk rest with
    | Except.ok vs => Except.ok (v :: vs)
    | Except.error e => Except.error e
  | Except.error e :: _ => Except.error e

/-- The `factory.requires.map(token => resolveToken(registry, token))`
step: issue every dependency resolution in declaration order,
threading the cache and instrumentation state, for a given
token-resolution function. -/
def resolveDepsGo
    (tokRes : ResState → Token → Option (Except Err Value × ResState)) :
    ResState → List Token → Option (List (Except Err Value) × ResState)
  | s, [] => some ([], s)
  | s, t :: rest =>
    match tokRes s t with
    | none => none
    | some (r, s1) =>
      match resolveDepsGo tokRes s1 rest with
      | none => none
      | some (rs, s2) => some (r :: rs, s2)

/-- Embedding of `resolveFactory` (lines 250-255): resolve every
required token through the token path in declaration order, join as
`Promise.all`, then invoke `create` with the values positionally. -/
def resolveFactoryGo
    (tokRes : ResState → Token → Option (Except Err Value × ResState))
    (s : ResState) (f : IFactory) : Option (Except Err Value × ResState) :=
  match resolveDepsGo tokRes s f.requires with
  | none => none
  | some (results, s1) =>
    match allOk results with
    | Except.error e => some (Except.error e, s1)
    | Except.ok vs =>
      some (f.create vs, { s1 with events := s1.events ++ [f.createId] })

/-- Embedding of `resolveToken` (lines 235-244) together with the two
resolver `resolve` bodies: unregistered tokens fail immediately with
an error carrying the token name; a transient resolver re-resolves
its factory on every call; a singleton resolver consults its cache
first and caches only successes.  Structural on the fuel, which is
spent when descending into a registered resolver. -/
def resolveTokenGo (R : Registry) :
    Nat → ResState → Token → Option (Except Err Value × ResState)
  | fuel, s, t =>
    match regLookup R t with
    | none => some (Except.error (Err.unregistered t.name), s)
    | some res =>
      match fuel with
      | 0 => none
      | fuel' + 1 =>
        match res with
        | Resolver.transient f =>
          resolveFactoryGo (resolveTokenGo R fuel') s f
        | Resolver.singleton f =>
          match cacheLookup s.cache t with
          | some v => some (Except.ok v, s)
          | none =>
            match resolveFactoryGo (resolveTokenGo R fuel') s f with
            | none => none
            | some (Except.ok v, s1) =>
              some (Except.ok v, { s1 with cache := (t, v) :: s1.cache })
            | some (Except.error e, s1) => some (Except.error e, s1)

/-- Fuelled `resolveToken`. -/
def resolveToken (fuel : Nat) (R : Registry) (s : ResState) (t : Token) :
    Option (Except Err Value × ResState) :=
  resolveTokenGo R fuel s t

/-- Fuelled `resolveFactory`; each dependency goes through the token
path with the same fuel. -/
def resolveFactory (fuel : Nat) (R : Registry) (s : ResState) (f : IFactory) :
    Option (Except Err Value × ResState) :=
  resolveFactoryGo (resolveTokenGo R fuel) s f

/-- Fuelled dependency-list resolution. -/
def resolveDeps (fuel : Nat) (R : Registry) (s : ResState)
    (ts : List Token) : Option (List (Except Err Value) × ResState) :=
  resolveDepsGo (resolveTokenGo R fuel) s ts

/-- Argument of `Container.resolve`: a token or a factory; the
`instanceof Token` test dispatches on this. -/
inductive ResolveArg where
  | token (t : Token)
  | factory (f : IFactory)

/-- Embedding of `Container.resolve` (lines 134-142): dispatch on the
argument kind. -/
def Container.resolve (fuel : Nat) (R : Registry) (s : ResState) :
    ResolveArg → Option (Except Err Value × ResState)
  | ResolveArg.token t => resolveToken fuel R s t
  | ResolveArg.factory f => resolveFactory fuel R s f

/-
Module-scope facade.  The tests (test/src) import module-scope
`isRegistered`, `register` and `resolve` from the library, but that
code is not among the provided sources; it is modelled from the spec
below.
-/

/-- Modelled from the spec: the process-wide default container of the
module-scope facade, created once at first use; `none` is the state
before first use; the missing code is the module-scope
`isRegistered`/`register`/`resolve` functions of the library entry
point.  The default container starts with an empty registry. -/
def ensureDefault (g : Option Registry) : Registry :=
  g.getD []

/-- Modelled from the spec: module-scope `isRegistered`, forwarding
1:1 to the default container instance. -/
def moduleIsRegistered (g : Option Registry) (t : Token) : Bool :=
  Container.isRegistered (ensureDefault g) t

/-- Modelled from the spec: module-scope `register`, forwarding 1:1
to the default container instance; the updated default registry is
returned alongside the diagnostic, and the instance (now created) is
retained for later calls. -/
def moduleRegister (g : Option Registry) (t : Token) (f : IFactory) :
    Option (Option Registry × Option Diag) :=
  match Container.register (ensureDefault g) t f with
  | none => none
  | some (R', d) => some (some R', d)

/-- Modelled from the spec: module-scope `resolve`, forwarding 1:1 to
the default container instance. -/
def moduleResolve (fuel : Nat) (g : Option Registry) (s : ResState)
    (arg : ResolveArg) : Option (Except Err Value × ResState) :=
  Container.resolve fuel (ensureDefault g) s arg

/-
Concrete instances used to exercise the theorems, mirroring the
shapes of the repository's test suite (factories A requires B,
B requires A; a zero-dependency bar factory; a transient factory).
-/

/-- Example token A. -/
def exTokenA : Token := ⟨0, "A"⟩

/-- Example token B. -/
def exTokenB : Token := ⟨1, "B"⟩

/-- Example token C, never registered in the examples. -/
def exTokenC : Token := ⟨2, "C"⟩

/-- Example factory for A, requiring B. -/
def exFacA : IFactory := ⟨none, [exTokenB], 1, fun _ => Except.ok 10⟩

/-- Example factory for B, requiring A (closes a cycle after A). -/
def exFacB : IFactory := ⟨none, [exTokenA], 2, fun _ => Except.ok 20⟩

/-- Example zero-dependency singleton factory. -/
def exFacBar : IFactory := ⟨none, [], 5, fun _ => Except.ok 42⟩

/-- Example zero-dependency transient factory. -/
def exFacTrans : IFactory := ⟨some Lifetime.Transient, [], 3, fun _ => Except.ok 7⟩

/-- Example ad hoc factory requiring the unregistered token C. -/
def exFacBaz : IFactory := ⟨none, [exTokenC], 4, fun _ => Except.ok 30⟩

/-- Registry after registering A with `exFacA` in a fresh container. -/
def exRegA : Registry := [(exTokenA, createResolver exFacA)]

/-- Registry with the transient factory bound to B. -/
def exRegTrans : Registry := [(exTokenB, createResolver exFacTrans)]

end PhosphorDI

namespace PhosphorDI

/- ------------------------------------------------------------------ -/
/- Theorems.                                                          -/
/- ------------------------------------------------------------------ -/

/-- Duplicate registration is reported before cycle detection and
leaves everything unchanged, for any factory whatsoever. -/
theorem register_duplicate (R : Registry) (t : Token) (f : IFactory)
    (res : Resolver) (h : regLookup R t = some res) :
    Container.register R t f = some (R, some (Diag.duplicateReg t.name)) ∧
    Container.isRegistered R t = true := by
  refine ⟨?_, ?_⟩
  · unfold Container.register
    rw [h]
    rfl
  · unfold Container.isRegistered
    rw [h]
    rfl

/-- C5: a second register call for an already bound token (with any
factory, before any cycle check) returns normally, changes nothing in
the registry, and emits a duplicate diagnostic naming the token, so
isRegistered and all later resolution behaviour are as after the
first registration. -/
theorem claim5_duplicate_registration_ignored (R : Registry) (t : Token)
    (f g : IFactory) (res : Resolver) (h : regLookup R t = some res) :
    Container.register R t f = some (R, some (Diag.duplicateReg t.name)) ∧
    Container.register R t g = some (R, some (Diag.duplicateReg t.name)) ∧
    Container.isRegistered R t = true ∧
    (∀ fuel s arg, Container.resolve fuel
        (Container.register R t f).iget.1 s arg = Container.resolve fuel R s arg) := by
  obtain ⟨h1, h2⟩ := register_duplicate R t f res h
  obtain ⟨h3, _⟩ := register_duplicate R t g res h
  refine ⟨h1, h3, h2, ?_⟩
  intro fuel s arg
  rw [h1]

/-- C5 witness at a concrete registry: re-registering A is rejected
with a duplicate diagnostic and the registry is untouched. -/
theorem claim5_witness :
    Container.register exRegA exTokenA exFacB
      = some (exRegA, some (Diag.duplicateReg "A")) ∧
    Container.isRegistered exRegA exTokenA = true :=
  ⟨(claim5_duplicate_registration_ignored exRegA exTokenA exFacB exFacB
      (createResolver exFacA) rfl).1,
   (claim5_duplicate_registration_ignored exRegA exTokenA exFacB exFacB
      (createResolver exFacA) rfl).2.2.1⟩

/-- Dependency resolution splits along list append. -/
theorem resolveDepsGo_append
    (tokRes : ResState → Token → Option (Except Err Value × ResState))
    (s : ResState) (l1 l2 : List Token) :
    resolveDepsGo tokRes s (l1 ++ l2) =
      match resolveDepsGo tokRes s l1 with
      | none => none
      | some (rs, s1) =>
        match resolveDepsGo tokRes s1 l2 with
        | none => none
        | some (rs2, s2) => some (rs ++ rs2, s2) := by
  induction l1 generalizing s with
  | nil =>
    simp only [List.nil_append, resolveDepsGo]
    cases resolveDepsGo tokRes s l2 with
    | none => rfl
    | some pr =>
      obtain ⟨rs2, s2⟩ := pr
      rfl
  | cons t rest ih =>
    simp only [List.cons_append, resolveDepsGo]
    cases tokRes s t with
    | none => rfl
    | some pr =>
      obtain ⟨r, s1⟩ := pr
      simp only [List.append_eq]
      rw [ih s1]
      cases resolveDepsGo tokRes s1 rest with
      | none => rfl
      | some pr2 =>
        obtain ⟨rs, s2⟩ := pr2
        simp only
        cases resolveDepsGo tokRes s2 l2 with
        | none => rfl
        | some pr3 => rfl

/-- The `Promise.all` join fails with the first failure: a failing
entry after an all-success prefix decides the outcome. -/
theorem allOk_append_error (rs : List (Except Err Value)) (vs : List Value)
    (e : Err) (more : List (Except Err Value)) (h : allOk rs = Except.ok vs) :
    allOk (rs ++ Except.error e :: more) = Except.error e := by
  induction rs generalizing vs with
  | nil => simp [allOk]
  | cons r rest ih =>
    cases r with
    | error e0 => simp [allOk] at h
    | ok v =>
      simp only [allOk] at h
      cases hrest : allOk rest with
      | error e1 => rw [hrest] at h; exact absurd h (by simp)
      | ok vs0 =>
        simp only [List.cons_append, List.append_eq, allOk, ih vs0 hrest]

/-- C7: resolving a token with no bound resolver, directly or through
a dependency chain, yields a failed computation (never a raised
exception, never a success) whose error carries the token's name. -/
theorem claim7_unregistered_token_fails (fuel : Nat) (R : Registry)
    (s : ResState) (t : Token) (hR : regLookup R t = none) :
    Container.resolve fuel R s (ResolveArg.token t)
      = some (Except.error (Err.unregistered t.name), s) ∧
    (∀ (f : IFactory) (pre post : List Token) (rs : List (Except Err Value))
        (vs : List Value) (s1 : ResState) (rs2 : List (Except Err Value))
        (s2 : ResState),
      f.requires = pre ++ t :: post →
      resolveDeps fuel R s pre = some (rs, s1) →
      allOk rs = Except.ok vs →
      resolveDeps fuel R s1 post = some (rs2, s2) →
      resolveFactory fuel R s f
        = some (Except.error (Err.unregistered t.name), s2)) := by
  have htok : ∀ s0 : ResState, resolveTokenGo R fuel s0 t
      = some (Except.error (Err.unregistered t.name), s0) := by
    intro s0
    unfold resolveTokenGo
    rw [hR]
  refine ⟨htok s, ?_⟩
  intro f pre post rs vs s1 rs2 s2 hreq hpre hok hpost
  have hmid : resolveDepsGo (resolveTokenGo R fuel) s1 (t :: post)
      = some (Except.error (Err.unregistered t.name) :: rs2, s2) := by
    simp only [resolveDepsGo, htok s1]
    rw [show resolveDepsGo (resolveTokenGo R fuel) s1 post = some (rs2, s2) from hpost]
  have happ := resolveDepsGo_append (resolveTokenGo R fuel) s pre (t :: post)
  rw [show resolveDepsGo (resolveTokenGo R fuel) s pre = some (rs, s1) from hpre] at happ
  simp only [hmid] at happ
  show resolveFactoryGo (resolveTokenGo R fuel) s f
      = some (Except.error (Err.unregistered t.name), s2)
  unfold resolveFactoryGo
  rw [hreq, happ]
  simp only [allOk_append_error rs vs _ rs2 hok]

/-- C7 witness: resolving the unregistered token C directly, and via
an ad hoc factory requiring C, both fail with an error naming C. -/
theorem claim7_witness :
    Container.resolve 3 ([] : Registry) ⟨[], []⟩ (ResolveArg.token exTokenC)
      = some (Except.error (Err.unregistered "C"), ⟨[], []⟩) ∧
    resolveFactory 3 ([] : Registry) ⟨[], []⟩ exFacBaz
      = some (Except.error (Err.unregistered "C"), ⟨[], []⟩) := by
  have h := claim7_unregistered_token_fails 3 [] ⟨[], []⟩ exTokenC rfl
  exact ⟨h.1, h.2 exFacBaz [] [] [] [] ⟨[], []⟩ [] ⟨[], []⟩ rfl rfl rfl rfl⟩

/-- Once `_resolved` is set or a promise is in flight, no creation is
started along any failure-free trace. -/
theorem startsOf_eq_zero {V : Type} (es : List (SEvent V)) :
    ∀ s : SingletonState V, SEvent.fail ∉ es →
      (s.resolved = true ∨ s.promise.isSome = true) → startsOf s es = 0 := by
  induction es with
  | nil =>
    intro s _ _
    rfl
  | cons e rest ih =>
    intro s hnf hs
    have hnf1 : SEvent.fail ∉ rest := by
      intro hmem
      exact hnf (List.mem_cons_of_mem e hmem)
    cases e with
    | resolveCall fresh =>
      have hstate : s.stepEvent (SEvent.resolveCall fresh) = s := by
        rcases hs with h1 | h2
        · simp [SingletonState.stepEvent, SingletonState.resolveStep, h1]
        · obtain ⟨p, hp⟩ := Option.isSome_iff_exists.mp h2
          by_cases hr : s.resolved <;>
            simp [SingletonState.stepEvent, SingletonState.resolveStep, hr, hp]
      have hnostart : s.isStart (SEvent.resolveCall fresh) = false := by
        rcases hs with h1 | h2
        · simp [SingletonState.isStart, SingletonState.resolveStep, h1]
        · obtain ⟨p, hp⟩ := Option.isSome_iff_exists.mp h2
          by_cases hr : s.resolved <;>
            simp [SingletonState.isStart, SingletonState.resolveStep, hr, hp]
      rw [show startsOf s (SEvent.resolveCall fresh :: rest)
          = (if s.isStart (SEvent.resolveCall fresh) then 1 else 0)
            + startsOf (s.stepEvent (SEvent.resolveCall fresh)) rest from rfl,
        hnostart, hstate]
      simpa using ih s hnf1 hs
    | succeed v =>
      have hkeep : ((s.stepEvent (SEvent.succeed v)).resolved = true ∨
          (s.stepEvent (SEvent.succeed v)).promise.isSome = true) := by
        by_cases hp : s.promise.isSome
        · left
          simp [SingletonState.stepEvent, SingletonState.onSuccess, hp]
        · rcases hs with h1 | h2
          · left
            simpa [SingletonState.stepEvent, hp] using h1
          · exact absurd h2 hp
      rw [show startsOf s (SEvent.succeed v :: rest)
          = (if s.isStart (SEvent.succeed v) then 1 else 0)
            + startsOf (s.stepEvent (SEvent.succeed v)) rest from rfl,
        show s.isStart (SEvent.succeed v) = false from rfl]
      simpa using ih _ hnf1 hkeep
    | fail =>
      exact absurd (List.mem_cons_self _ _) hnf

/-- Along any failure-free trace, at most one creation is started. -/
theorem startsOf_le_one {V : Type} (es : List (SEvent V)) :
    ∀ s : SingletonState V, SEvent.fail ∉ es → startsOf s es ≤ 1 := by
  induction es with
  | nil =>
    intro s _
    exact Nat.zero_le 1
  | cons e rest ih =>
    intro s hnf
    have hnf1 : SEvent.fail ∉ rest := by
      intro hmem
      exact hnf (List.mem_cons_of_mem e hmem)
    by_cases hstart : s.isStart e
    · have hzero : startsOf (s.stepEvent e) rest = 0 := by
        apply startsOf_eq_zero rest _ hnf1
        right
        cases e with
        | resolveCall fresh =>
          by_cases hr : s.resolved
          · exact absurd hstart
              (by simp [SingletonState.isStart, SingletonState.resolveStep, hr])
          · cases hp : s.promise with
            | some p =>
              exact absurd hstart
                (by simp [SingletonState.isStart, SingletonState.resolveStep, hr, hp])
            | none =>
              simp [SingletonState.stepEvent, SingletonState.resolveStep, hr, hp]
        | succeed v => exact absurd hstart (by simp [SingletonState.isStart])
        | fail => exact absurd hstart (by simp [SingletonState.isStart])
      rw [show startsOf s (e :: rest)
          = (if s.isStart e then 1 else 0) + startsOf (s.stepEvent e) rest from rfl,
        hzero]
      simp [hstart]
    · rw [show startsOf s (e :: rest)
          = (if s.isStart e then 1 else 0) + startsOf (s.stepEvent e) rest from rfl]
      simp only [hstart, Bool.false_eq_true, if_false, Nat.zero_add]
      exact ih _ hnf1

/-- C1: for a singleton resolver, creation is started at most once
along any failure-free trace of events from the initial state;
while a creation is in flight every resolve call returns the very
same shared promise without starting anything and without touching
the state; and once resolved every call returns the single cached
value with no new work. -/
theorem claim1_singleton_create_once {V : Type} (es : List (SEvent V))
    (hnf : SEvent.fail ∉ es) :
    startsOf (SingletonState.initial V) es ≤ 1 ∧
    (∀ (s : SingletonState V) (p fresh : Nat),
      s.resolved = false → s.promise = some p →
      s.resolveStep fresh = (SingReturn.shared p, s)) ∧
    (∀ (s : SingletonState V) (v : V) (fresh : Nat),
      s.resolved = true → s.value = some v →
      s.resolveStep fresh = (SingReturn.cached (some v), s)) := by
  refine ⟨startsOf_le_one es _ hnf, ?_, ?_⟩
  · intro s p fresh hr hp
    unfold SingletonState.resolveStep
    rw [hr, hp]
    rfl
  · intro s v fresh hr hv
    unfold SingletonState.resolveStep
    rw [hr, hv]
    rfl

/-- C1 witness: a concrete trace with two overlapping resolve calls
followed by success and two more calls starts exactly one creation,
and the second in-flight call shares promise 7. -/
theorem claim1_witness :
    startsOf (SingletonState.initial Nat)
        [SEvent.resolveCall 7, SEvent.resolveCall 8, SEvent.succeed 42,
         SEvent.resolveCall 9, SEvent.resolveCall 10] ≤ 1 ∧
    SingletonState.resolveStep (V := Nat) ⟨none, false, some 7⟩ 8
      = (SingReturn.shared 7, ⟨none, false, some 7⟩) ∧
    SingletonState.resolveStep (V := Nat) ⟨some 42, true, none⟩ 9
      = (SingReturn.cached (some 42), ⟨some 42, true, none⟩) := by
  have h := claim1_singleton_create_once (V := Nat)
    [SEvent.resolveCall 7, SEvent.resolveCall 8, SEvent.succeed 42,
     SEvent.resolveCall 9, SEvent.resolveCall 10] (by decide)
  exact ⟨h.1, h.2.1 ⟨none, false, some 7⟩ 7 8 rfl rfl,
    h.2.2 ⟨some 42, true, none⟩ 42 9 rfl rfl⟩

/-- C2: the singleton state machine moves only along
Unresolved to Pending (a resolve call, which starts creation from
scratch), Pending to Resolved (success, caching the value), and
Pending back to Unresolved (failure, clearing only the pending
marker, caching nothing); a resolve call never changes the phase,
a resolved state is never left by any event, and a resolve call in
the resolved state performs no work and returns the cached value. -/
theorem claim2_singleton_phase_transitions {V : Type}
    (s : SingletonState V) (fresh : Nat) (v : V) :
    (s.phase = Phase.unresolvedP →
      (s.resolveStep fresh).1 = SingReturn.started fresh ∧
      (s.stepEvent (SEvent.resolveCall fresh)).phase = Phase.pendingP) ∧
    (s.phase = Phase.pendingP →
      s.stepEvent (SEvent.resolveCall fresh) = s) ∧
    (s.phase = Phase.pendingP →
      (s.stepEvent (SEvent.succeed v)).phase = Phase.resolvedP ∧
      (s.stepEvent (SEvent.succeed v)).value = some v) ∧
    (s.phase = Phase.pendingP →
      s.stepEvent SEvent.fail = { s with promise := none } ∧
      (s.stepEvent SEvent.fail).phase = Phase.unresolvedP) ∧
    (s.phase = Phase.resolvedP →
      s.stepEvent (SEvent.resolveCall fresh) = s ∧
      (s.resolveStep fresh).1 = SingReturn.cached s.value ∧
      ∀ e : SEvent V, (s.stepEvent e).phase = Phase.resolvedP) := by
  by_cases hr : s.resolved
  · have hres : s.phase = Phase.resolvedP := by
      simp [SingletonState.phase, hr]
    refine ⟨?_, ?_, ?_, ?_, ?_⟩
    · intro h
      rw [hres] at h
      exact absurd h (by simp)
    · intro h
      rw [hres] at h
      exact absurd h (by simp)
    · intro h
      rw [hres] at h
      exact absurd h (by simp)
    · intro h
      rw [hres] at h
      exact absurd h (by simp)
    · intro _
      refine ⟨?_, ?_, ?_⟩
      · simp [SingletonState.stepEvent, SingletonState.resolveStep, hr]
      · simp [SingletonState.resolveStep, hr]
      · intro e
        cases e with
        | resolveCall fr =>
          simp [SingletonState.stepEvent, SingletonState.resolveStep, hr,
            SingletonState.phase]
        | succeed w =>
          by_cases hp : s.promise.isSome <;>
            simp [SingletonState.stepEvent, SingletonState.onSuccess, hp,
              SingletonState.phase, hr]
        | fail =>
          by_cases hp : s.promise.isSome <;>
            simp [SingletonState.stepEvent, SingletonState.onFailure, hp,
              SingletonState.phase, hr]
  · cases hp : s.promise with
    | none =>
      have hunres : s.phase = Phase.unresolvedP := by
        simp [SingletonState.phase, hr, hp]
      refine ⟨?_, ?_, ?_, ?_, ?_⟩
      · intro _
        constructor
        · simp [SingletonState.resolveStep, hr, hp]
        · simp [SingletonState.stepEvent, SingletonState.resolveStep, hr, hp,
            SingletonState.phase]
      · intro h
        rw [hunres] at h
        exact absurd h (by simp)
      · intro h
        rw [hunres] at h
        exact absurd h (by simp)
      · intro h
        rw [hunres] at h
        exact absurd h (by simp)
      · intro h
        rw [hunres] at h
        exact absurd h (by simp)
    | some p =>
      have hpend : s.phase = Phase.pendingP := by
        simp [SingletonState.phase, hr, hp]
      refine ⟨?_, ?_, ?_, ?_, ?_⟩
      · intro h
        rw [hpend] at h
        exact absurd h (by simp)
      · intro _
        simp [SingletonState.stepEvent, SingletonState.resolveStep, hr, hp]
      · intro _
        constructor
        · simp [SingletonState.stepEvent, SingletonState.onSuccess, hp,
            SingletonState.phase]
        · simp [SingletonState.stepEvent, SingletonState.onSuccess, hp]
      · intro _
        constructor
        · simp [SingletonState.stepEvent, SingletonState.onFailure, hp]
        · simp [SingletonState.stepEvent, SingletonState.onFailure, hp,
            SingletonState.phase, hr]
      · intro h
        rw [hpend] at h
        exact absurd h (by simp)

/-- C2 witness: from a concrete pending state, failure returns the
machine to unresolved with nothing cached, and from the unresolved
state a resolve call restarts creation. -/
theorem claim2_witness :
    SingletonState.stepEvent (V := Nat) ⟨none, false, some 3⟩ SEvent.fail
      = ⟨none, false, none⟩ ∧
    (SingletonState.stepEvent (V := Nat) ⟨none, false, some 3⟩ SEvent.fail).phase
      = Phase.unresolvedP ∧
    (SingletonState.resolveStep (V := Nat) ⟨none, false, none⟩ 4).1
      = SingReturn.started 4 ∧
    (SingletonState.stepEvent (V := Nat) ⟨none, false, some 3⟩ (SEvent.succeed 8)).phase
      = Phase.resolvedP := by
  have h1 := claim2_singleton_phase_transitions (V := Nat) ⟨none, false, some 3⟩ 4 8
  have h2 := claim2_singleton_phase_transitions (V := Nat) ⟨none, false, none⟩ 4 8
  obtain ⟨hf1, hf2⟩ := h1.2.2.2.1 rfl
  exact ⟨hf1, hf2, (h2.1 rfl).1, (h1.2.2.1 rfl).1⟩

/-- Resolving a factory invokes `create` positionally once the
dependency phase succeeds, recording the invocation. -/
theorem resolveFactoryGo_create
    (tokRes : ResState → Token → Option (Except Err Value × ResState))
    (s : ResState) (f : IFactory) (rs : List (Except Err Value))
    (vs : List Value) (s1 : ResState)
    (hdeps : resolveDepsGo tokRes s f.requires = some (rs, s1))
    (hok : allOk rs = Except.ok vs) :
    resolveFactoryGo tokRes s f
      = some (f.create vs, { s1 with events := s1.events ++ [f.createId] }) := by
  unfold resolveFactoryGo
  rw [hdeps]
  simp only [hok]

/-- C6: an ad hoc factory descriptor passed directly to resolve is
handled without any resolver and without lifetime caching: the result
is the same for every lifetime the descriptor declares, each required
token is resolved through the token path in declaration order, and
when the dependency phase succeeds `create` is invoked with the
resolved values positionally — on every call, including a repeated
call from the state the first one produced, even for a Singleton
descriptor. -/
theorem claim6_adhoc_factory_no_caching (fuel : Nat) (R : Registry)
    (s : ResState) (f : IFactory) (l : Option Lifetime)
    (rs : List (Except Err Value)) (vs : List Value) (s1 : ResState)
    (hdeps : resolveDeps fuel R s f.requires = some (rs, s1))
    (hok : allOk rs = Except.ok vs) :
    Container.resolve fuel R s (ResolveArg.factory f)
      = some (f.create vs, { s1 with events := s1.events ++ [f.createId] }) ∧
    Container.resolve fuel R s (ResolveArg.factory { f with lifetime := l })
      = Container.resolve fuel R s (ResolveArg.factory f) ∧
    (∀ (rs2 : List (Except Err Value)) (vs2 : List Value) (s2 : ResState),
      resolveDeps fuel R { s1 with events := s1.events ++ [f.createId] }
          f.requires = some (rs2, s2) →
      allOk rs2 = Except.ok vs2 →
      Container.resolve fuel R { s1 with events := s1.events ++ [f.createId] }
          (ResolveArg.factory f)
        = some (f.create vs2, { s2 with events := s2.events ++ [f.createId] })) := by
  have h1 : Container.resolve fuel R s (ResolveArg.factory f)
      = some (f.create vs, { s1 with events := s1.events ++ [f.createId] }) :=
    resolveFactoryGo_create (resolveTokenGo R fuel) s f rs vs s1 hdeps hok
  refine ⟨h1, rfl, ?_⟩
  intro rs2 vs2 s2 hdeps2 hok2
  exact resolveFactoryGo_create (resolveTokenGo R fuel) _ f rs2 vs2 s2 hdeps2 hok2

/-- C6 witness: the ad hoc singleton factory `exFacBar` (no
dependencies) invokes `create` on both of two consecutive direct
resolutions — no caching applies. -/
theorem claim6_witness :
    Container.resolve 2 ([] : Registry) ⟨[], []⟩ (ResolveArg.factory exFacBar)
      = some (Except.ok 42, ⟨[], [5]⟩) ∧
    Container.resolve 2 ([] : Registry) ⟨[], [5]⟩ (ResolveArg.factory exFacBar)
      = some (Except.ok 42, ⟨[], [5, 5]⟩) := by
  have h := claim6_adhoc_factory_no_caching 2 [] ⟨[], []⟩ exFacBar
    (some Lifetime.Singleton) [] [] ⟨[], []⟩ rfl rfl
  exact ⟨h.1, h.2.2 [] [] ⟨[], [5]⟩ rfl rfl⟩

/-- C8: a transient resolver performs a fresh full resolution of its
factory on every call, from whatever state the call finds (there is
no resolver-local memo), and every call whose dependency phase
succeeds invokes the factory's `create` exactly once more, appending
its id to the invocation trace. -/
theorem claim8_transient_fresh_resolution (fuel : Nat) (R : Registry)
    (t : Token) (f : IFactory)
    (hreg : regLookup R t = some (Resolver.transient f)) :
    (∀ s : ResState, resolveToken (fuel + 1) R s t = resolveFactory fuel R s f) ∧
    (∀ (s : ResState) (rs : List (Except Err Value)) (vs : List Value)
        (s1 : ResState),
      resolveDeps fuel R s f.requires = some (rs, s1) →
      allOk rs = Except.ok vs →
      resolveToken (fuel + 1) R s t
        = some (f.create vs, { s1 with events := s1.events ++ [f.createId] })) := by
  have hfresh : ∀ s : ResState,
      resolveToken (fuel + 1) R s t = resolveFactory fuel R s f := by
    intro s
    show resolveTokenGo R (fuel + 1) s t = resolveFactoryGo (resolveTokenGo R fuel) s f
    unfold resolveTokenGo
    rw [hreg]
  refine ⟨hfresh, ?_⟩
  intro s rs vs s1 hdeps hok
  rw [hfresh s]
  exact resolveFactoryGo_create (resolveTokenGo R fuel) s f rs vs s1 hdeps hok

/-- C8 witness: two sequential resolve calls of the transient token B
each invoke `create` once more, producing one fresh instance per
call. -/
theorem claim8_witness :
    resolveToken 2 exRegTrans ⟨[], []⟩ exTokenB
      = some (Except.ok 7, ⟨[], [3]⟩) ∧
    resolveToken 2 exRegTrans ⟨[], [3]⟩ exTokenB
      = some (Except.ok 7, ⟨[], [3, 3]⟩) := by
  have h := claim8_transient_fresh_resolution 1 exRegTrans exTokenB exFacTrans rfl
  exact ⟨h.2 ⟨[], []⟩ [] [] ⟨[], []⟩ rfl rfl, h.2 ⟨[], [3]⟩ [] [] ⟨[], [3]⟩ rfl rfl⟩

/-- C9: the module-scope functions forward one-to-one, with no
additional logic, to the single default container: each module-scope
call equals the corresponding Container operation on the default
instance, which starts as a fresh (empty) container at first use and
is retained across calls. -/
theorem claim9_facade_forwards (g : Option Registry) (t : Token)
    (f : IFactory) (fuel : Nat) (s : ResState) (arg : ResolveArg) :
    moduleIsRegistered g t = Container.isRegistered (ensureDefault g) t ∧
    moduleRegister g t f
      = (Container.register (ensureDefault g) t f).map
          (fun p => (some p.1, p.2)) ∧
    moduleResolve fuel g s arg = Container.resolve fuel (ensureDefault g) s arg ∧
    ensureDefault none = ([] : Registry) ∧
    (∀ R : Registry, ensureDefault (some R) = R) := by
  refine ⟨rfl, ?_, rfl, rfl, fun _ => rfl⟩
  unfold moduleRegister
  cases Container.register (ensureDefault g) t f with
  | none => rfl
  | some p =>
    obtain ⟨R', d⟩ := p
    rfl

/-- A discovered requires path is never empty. -/
theorem PathFrom.ne_nil {R : Registry} {token : Token} {reqs : List Token}
    {is : List Nat} {p : List Token} (h : PathFrom R token reqs is p) :
    p ≠ [] := by
  cases h <;> simp

/-- A discovered requires path ends with the offending token. -/
theorem PathFrom.last_eq {R : Registry} {token : Token} {reqs : List Token}
    {is : List Nat} {p : List Token} (h : PathFrom R token reqs is p) :
    p.getLast? = some token := by
  induction h with
  | hit hi => rfl
  | descend hi hne hreg hp ih =>
    obtain ⟨q, qs, rfl⟩ := List.exists_cons_of_ne_nil hp.ne_nil
    rw [List.getLast?_cons_cons]
    exact ih

/-- Requires paths shift along the head of the dependency list. -/
theorem pathFrom_cons_succ {R : Registry} {token other : Token}
    {rest : List Token} {i : Nat} {is : List Nat} {p : List Token} :
    PathFrom R token (other :: rest) ((i + 1) :: is) p ↔
      PathFrom R token rest (i :: is) p := by
  constructor
  · intro h
    cases h with
    | hit hi => exact PathFrom.hit (by simpa using hi)
    | descend hi hne hreg hp =>
      exact PathFrom.descend (by simpa using hi) hne hreg hp
  · intro h
    cases h with
    | hit hi => exact PathFrom.hit (i := i + 1) (by simpa using hi)
    | descend hi hne hreg hp =>
      exact PathFrom.descend (i := i + 1) (by simpa using hi) hne hreg hp

/-- First position beats any deeper position in discovery order. -/
theorem IdxLe.zero_succ {is : List Nat} {j : Nat} {js : List Nat} :
    IdxLe (0 :: is) ((j + 1) :: js) :=
  Or.inr (List.Lex.rel (Nat.succ_pos j))

/-- Discovery order is preserved under a common head. -/
theorem IdxLe.cons {i : Nat} {is js : List Nat} (h : IdxLe is js) :
    IdxLe (i :: is) (i :: js) := by
  cases h with
  | inl h => exact Or.inl (by rw [h])
  | inr h => exact Or.inr (List.Lex.cons h)

/-- Discovery order is preserved by shifting both heads one step. -/
theorem IdxLe.succ_succ {i j : Nat} {is js : List Nat}
    (h : IdxLe (i :: is) (j :: js)) :
    IdxLe ((i + 1) :: is) ((j + 1) :: js) := by
  cases h with
  | inl h =>
    injection h with h1 h2
    subst h1
    subst h2
    exact Or.inl rfl
  | inr h =>
    cases h with
    | cons h => exact Or.inr (List.Lex.cons h)
    | rel h => exact Or.inr (List.Lex.rel (Nat.succ_lt_succ h))

/-- Completeness of the search loop: a fully explored dependency list
with no cycle found admits no requires path to the candidate token,
provided the descent is itself complete. -/
theorem visitGo_complete (R : Registry) (token : Token)
    (descend : List Token → Option (Option (List Token)))
    (hdesc : ∀ reqs', descend reqs' = some none →
      ∀ is p, ¬ PathFrom R token reqs' is p) :
    ∀ reqs, visitGo R token descend reqs = some none →
      ∀ is p, ¬ PathFrom R token reqs is p := by
  intro reqs
  induction reqs with
  | nil =>
    intro _ is p hp
    cases hp with
    | hit hi => simp at hi
    | descend hi hne hreg hp2 => simp at hi
  | cons other rest ih =>
    intro hvg is p hp
    unfold visitGo at hvg
    by_cases heq : other = token
    · rw [if_pos heq] at hvg
      exact absurd hvg (by simp)
    · rw [if_neg heq] at hvg
      cases hlook : regLookup R other with
      | none =>
        simp only [hlook] at hvg
        cases hp with
        | @hit _ i hi =>
          cases i with
          | zero =>
            simp only [List.getElem?_cons_zero, Option.some.injEq] at hi
            exact heq hi
          | succ j =>
            simp only [List.getElem?_cons_succ] at hi
            exact ih hvg [j] [token] (PathFrom.hit hi)
        | @descend _ i x res is0 p0 hi hne hreg2 hp2 =>
          cases i with
          | zero =>
            simp only [List.getElem?_cons_zero, Option.some.injEq] at hi
            subst hi
            rw [hlook] at hreg2
            exact absurd hreg2 (by simp)
          | succ j =>
            simp only [List.getElem?_cons_succ] at hi
            exact ih hvg (j :: is0) (x :: p0)
              (PathFrom.descend hi hne hreg2 hp2)
      | some resolver =>
        simp only [hlook] at hvg
        cases hd : descend resolver.factory.requires with
        | none =>
          rw [hd] at hvg
          exact absurd hvg (by simp)
        | some o =>
          cases o with
          | some path =>
            rw [hd] at hvg
            exact absurd hvg (by simp)
          | none =>
            rw [hd] at hvg
            cases hp with
            | @hit _ i hi =>
              cases i with
              | zero =>
                simp only [List.getElem?_cons_zero, Option.some.injEq] at hi
                exact heq hi
              | succ j =>
                simp only [List.getElem?_cons_succ] at hi
                exact ih hvg [j] [token] (PathFrom.hit hi)
            | @descend _ i x res is0 p0 hi hne hreg2 hp2 =>
              cases i with
              | zero =>
                simp only [List.getElem?_cons_zero, Option.some.injEq] at hi
                subst hi
                rw [hlook] at hreg2
                injection hreg2 with hres
                subst hres
                exact hdesc _ hd is0 p0 hp2
              | succ j =>
                simp only [List.getElem?_cons_succ] at hi
                exact ih hvg (j :: is0) (x :: p0)
                  (PathFrom.descend hi hne hreg2 hp2)

/-- Soundness and discovery-order minimality of the search loop: a
found trace is a requires path reaching the candidate token, and its
index sequence comes no later in discovery order than that of any
other such path, provided the descent has both properties. -/
theorem visitGo_sound_min (R : Registry) (token : Token)
    (descend : List Token → Option (Option (List Token)))
    (hdc : ∀ reqs', descend reqs' = some none →
      ∀ is p, ¬ PathFrom R token reqs' is p)
    (hdm : ∀ reqs' dpath, descend reqs' = some (some dpath) →
      ∃ is, PathFrom R token reqs' is dpath ∧
        ∀ is' p', PathFrom R token reqs' is' p' → IdxLe is is') :
    ∀ reqs path, visitGo R token descend reqs = some (some path) →
      ∃ is, PathFrom R token reqs is path ∧
        ∀ is' p', PathFrom R token reqs is' p' → IdxLe is is' := by
  intro reqs
  induction reqs with
  | nil =>
    intro path h
    simp [visitGo] at h
  | cons other rest ih =>
    intro path h
    unfold visitGo at h
    by_cases heq : other = token
    · subst heq
      rw [if_pos rfl] at h
      simp only [Option.some.injEq] at h
      subst h
      refine ⟨[0], PathFrom.hit (i := 0) (by simp), ?_⟩
      intro is' p' hp'
      cases hp' with
      | @hit _ i hi =>
        cases i with
        | zero => exact Or.inl rfl
        | succ j => exact IdxLe.zero_succ
      | @descend _ i x res is1 p1 hi hne hreg2 hp2 =>
        cases i with
        | zero =>
          simp only [List.getElem?_cons_zero, Option.some.injEq] at hi
          exact absurd hi.symm hne
        | succ j => exact IdxLe.zero_succ
    · rw [if_neg heq] at h
      cases hlook : regLookup R other with
      | none =>
        simp only [hlook] at h
        obtain ⟨is0, hp0, hmin0⟩ := ih path h
        obtain ⟨j, tl, rfl⟩ : ∃ j tl, is0 = j :: tl := by
          cases hp0 with
          | hit hi => exact ⟨_, _, rfl⟩
          | descend hi hne hreg hp => exact ⟨_, _, rfl⟩
        refine ⟨(j + 1) :: tl, pathFrom_cons_succ.mpr hp0, ?_⟩
        intro is' p' hp'
        cases hp' with
        | @hit _ i hi =>
          cases i with
          | zero =>
            simp only [List.getElem?_cons_zero, Option.some.injEq] at hi
            exact absurd hi heq
          | succ k =>
            simp only [List.getElem?_cons_succ] at hi
            exact IdxLe.succ_succ (hmin0 [k] [token] (PathFrom.hit hi))
        | @descend _ i x res2 is1 p1 hi hne hreg2 hp2 =>
          cases i with
          | zero =>
            simp only [List.getElem?_cons_zero, Option.some.injEq] at hi
            subst hi
            rw [hlook] at hreg2
            exact absurd hreg2 (by simp)
          | succ k =>
            simp only [List.getElem?_cons_succ] at hi
            exact IdxLe.succ_succ
              (hmin0 (k :: is1) (x :: p1) (PathFrom.descend hi hne hreg2 hp2))
      | some resolver =>
        simp only [hlook] at h
        cases hd : descend resolver.factory.requires with
        | none =>
          rw [hd] at h
          exact absurd h (by simp)
        | some o =>
          cases o with
          | some dpath =>
            rw [hd] at h
            have h2 : other :: dpath = path := by
              have h3 : (some (some (other :: dpath))
                  : Option (Option (List Token))) = some (some path) := h
              simpa using h3
            subst h2
            obtain ⟨is0, hp0, hmin0⟩ := hdm _ _ hd
            refine ⟨0 :: is0,
              PathFrom.descend (i := 0) (by simp) heq hlook hp0, ?_⟩
            intro is' p' hp'
            cases hp' with
            | @hit _ i hi =>
              cases i with
              | zero =>
                simp only [List.getElem?_cons_zero, Option.some.injEq] at hi
                exact absurd hi heq
              | succ k => exact IdxLe.zero_succ
            | @descend _ i x res2 is1 p1 hi hne hreg2 hp2 =>
              cases i with
              | zero =>
                simp only [List.getElem?_cons_zero, Option.some.injEq] at hi
                subst hi
                rw [hlook] at hreg2
                injection hreg2 with hres
                subst hres
                exact IdxLe.cons (hmin0 is1 p1 hp2)
              | succ k => exact IdxLe.zero_succ
          | none =>
            rw [hd] at h
            have h4 : visitGo R token descend rest = some (some path) := h
            obtain ⟨is0, hp0, hmin0⟩ := ih path h4
            obtain ⟨j, tl, rfl⟩ : ∃ j tl, is0 = j :: tl := by
              cases hp0 with
              | hit hi => exact ⟨_, _, rfl⟩
              | descend hi hne hreg hp => exact ⟨_, _, rfl⟩
            refine ⟨(j + 1) :: tl, pathFrom_cons_succ.mpr hp0, ?_⟩
            intro is' p' hp'
            cases hp' with
            | @hit _ i hi =>
              cases i with
              | zero =>
                simp only [List.getElem?_cons_zero, Option.some.injEq] at hi
                exact absurd hi heq
              | succ k =>
                simp only [List.getElem?_cons_succ] at hi
                exact IdxLe.succ_succ (hmin0 [k] [token] (PathFrom.hit hi))
            | @descend _ i x res2 is1 p1 hi hne hreg2 hp2 =>
              cases i with
              | zero =>
                simp only [List.getElem?_cons_zero, Option.some.injEq] at hi
                subst hi
                rw [hlook] at hreg2
                injection hreg2 with hres
                subst hres
                exact absurd hp2 (hdc _ hd is1 p1)
              | succ k =>
                simp only [List.getElem?_cons_succ] at hi
                exact IdxLe.succ_succ
                  (hmin0 (k :: is1) (x :: p1) (PathFrom.descend hi hne hreg2 hp2))

/-- The fuelled search is complete and discovery-order minimal: a run
that finishes without finding a cycle excludes every requires path to
the candidate token, and a found trace is such a path, first in
discovery order. -/
theorem visit_complete_min (R : Registry) (token : Token) :
    ∀ fuel : Nat,
      (∀ reqs, visit R token fuel reqs = some none →
        ∀ is p, ¬ PathFrom R token reqs is p) ∧
      (∀ reqs path, visit R token fuel reqs = some (some path) →
        ∃ is, PathFrom R token reqs is path ∧
          ∀ is' p', PathFrom R token reqs is' p' → IdxLe is is') := by
  intro fuel
  induction fuel with
  | zero =>
    constructor
    · intro reqs h
      simp [visit] at h
    · intro reqs path h
      simp [visit] at h
  | succ fuel ih =>
    constructor
    · intro reqs h
      exact visitGo_complete R token (visit R token fuel) ih.1 reqs h
    · intro reqs path h
      exact visitGo_sound_min R token (visit R token fuel) ih.1 ih.2 reqs path h

/-- C3: when findCycle answers, an empty trace means no path of
requires edges (descending only through registered tokens, in
declaration order) from the candidate factory reaches the candidate
token, and a nonempty trace is exactly the first such path in
depth-first discovery order, ending with the offending token. -/
theorem claim3_findCycle_first_path (R : Registry) (token : Token)
    (factory : IFactory) (res : List Token)
    (h : findCycle R token factory = some res) :
    (res = [] → ∀ is p, ¬ PathFrom R token factory.requires is p) ∧
    (res ≠ [] →
      res.getLast? = some token ∧
      ∃ is, PathFrom R token factory.requires is res ∧
        ∀ is' p', PathFrom R token factory.requires is' p' → IdxLe is is') := by
  unfold findCycle at h
  cases hv : visit R token (cycleFuel R) factory.requires with
  | none =>
    rw [hv] at h
    exact absurd h (by simp)
  | some o =>
    cases o with
    | none =>
      rw [hv] at h
      have hres : res = [] := by
        have h2 : (some ([] : List Token) : Option (List Token)) = some res := h
        simpa using h2
      subst hres
      exact ⟨fun _ => (visit_complete_min R token (cycleFuel R)).1 _ hv,
        fun hne => absurd rfl hne⟩
    | some path =>
      rw [hv] at h
      have hres : path = res := by
        have h2 : (some path : Option (List Token)) = some res := h
        simpa using h2
      subst hres
      obtain ⟨is, hp, hmin⟩ := (visit_complete_min R token (cycleFuel R)).2 _ _ hv
      exact ⟨fun hnil => (hp.ne_nil hnil).elim,
        fun _ => ⟨hp.last_eq, is, hp, hmin⟩⟩

/-- C3 witness: registering B (requires A) after A (requires B), the
detector reports exactly the trace A, B — the first discovered path,
ending with the offending token B. -/
theorem claim3_witness :
    ([exTokenA, exTokenB] : List Token).getLast? = some exTokenB ∧
    (∃ is, PathFrom exRegA exTokenB exFacB.requires is [exTokenA, exTokenB] ∧
      ∀ is' p', PathFrom exRegA exTokenB exFacB.requires is' p' →
        IdxLe is is') :=
  (claim3_findCycle_first_path exRegA exTokenB exFacB
    [exTokenA, exTokenB] rfl).2 (by simp)

/-- Weakening the start list of a descent chain. -/
theorem DChain.weaken {R : Registry} {other : Token} {rest l : List Token}
    (h : DChain R rest l) : DChain R (other :: rest) l := by
  cases h with
  | nil => exact DChain.nil
  | cons hm hres hc => exact DChain.cons (List.mem_cons_of_mem other hm) hres hc

/-- A run of the search loop that reports nontermination exhibits a
descent chain one longer than the descent exhibits. -/
theorem visitGo_none_chain (R : Registry) (token : Token)
    (descend : List Token → Option (Option (List Token))) (fuel' : Nat)
    (hdesc : ∀ reqs', descend reqs' = none →
      ∃ l, DChain R reqs' l ∧ l.length = fuel') :
    ∀ reqs, visitGo R token descend reqs = none →
      ∃ l, DChain R reqs l ∧ l.length = fuel' + 1 := by
  intro reqs
  induction reqs with
  | nil =>
    intro h
    simp [visitGo] at h
  | cons other rest ih =>
    intro h
    unfold visitGo at h
    by_cases heq : other = token
    · rw [if_pos heq] at h
      exact absurd h (by simp)
    · rw [if_neg heq] at h
      cases hlook : regLookup R other with
      | none =>
        simp only [hlook] at h
        obtain ⟨l, hc, hl⟩ := ih h
        exact ⟨l, hc.weaken, hl⟩
      | some resolver =>
        simp only [hlook] at h
        cases hd : descend resolver.factory.requires with
        | none =>
          obtain ⟨l, hc, hl⟩ := hdesc _ hd
          exact ⟨other :: l, DChain.cons (List.mem_cons_self other rest) hlook hc,
            by simp [hl]⟩
        | some o =>
          cases o with
          | some path =>
            rw [hd] at h
            exact absurd h (by simp)
          | none =>
            rw [hd] at h
            have h4 : visitGo R token descend rest = none := h
            obtain ⟨l, hc, hl⟩ := ih h4
            exact ⟨l, hc.weaken, hl⟩

/-- Fuel exhaustion of the search produces a descent chain as long as
the fuel. -/
theorem visit_none_chain (R : Registry) (token : Token) :
    ∀ fuel reqs, visit R token fuel reqs = none →
      ∃ l, DChain R reqs l ∧ l.length = fuel := by
  intro fuel
  induction fuel with
  | zero =>
    intro reqs _
    exact ⟨[], DChain.nil, rfl⟩
  | succ fuel ih =>
    intro reqs h
    exact visitGo_none_chain R token (visit R token fuel) fuel ih reqs h

/-- From a descent chain, each later element is reachable from the
head through dependency edges. -/
theorem DChain.edgeChain {R : Registry} :
    ∀ {l reqs : List Token} {a b : Token},
      DChain R reqs (a :: l) → b ∈ l → ∃ m, EdgeChain R a m b := by
  intro l
  induction l with
  | nil =>
    intro reqs a b _ hb
    simp at hb
  | cons c l' ih =>
    intro reqs a b hch hb
    cases hch with
    | @cons _ _ _ res hm hres hc =>
      have hcm : c ∈ res.factory.requires := by
        cases hc with
        | cons hm2 hres2 hc2 => exact hm2
      have hstep : EdgeStep R a c := ⟨res, hres, hcm⟩
      rcases List.mem_cons.mp hb with hb1 | hb2
      · subst hb1
        exact ⟨[], EdgeChain.single hstep⟩
      · obtain ⟨m, hm3⟩ := ih hc hb2
        exact ⟨c :: m, EdgeChain.cons hstep hm3⟩

/-- Acyclic registries admit only duplicate-free descent chains. -/
theorem DChain.nodup {R : Registry} (hA : Acyclic R) :
    ∀ {l reqs : List Token}, DChain R reqs l → l.Nodup := by
  intro l
  induction l with
  | nil =>
    intro reqs _
    exact List.nodup_nil
  | cons a l' ih =>
    intro reqs hch
    have htail : l'.Nodup := by
      cases hch with
      | cons hm hres hc => exact ih hc
    refine List.nodup_cons.mpr ⟨?_, htail⟩
    intro hmem
    obtain ⟨m, hchain⟩ := DChain.edgeChain hch hmem
    exact hA a m hchain

/-- Every element of a descent chain is registered. -/
theorem DChain.subset_keys {R : Registry} :
    ∀ {l reqs : List Token}, DChain R reqs l →
      ∀ x ∈ l, (regLookup R x).isSome := by
  intro l
  induction l with
  | nil =>
    intro reqs _ x hx
    simp at hx
  | cons a l' ih =>
    intro reqs hch x hx
    cases hch with
    | cons hm hres hc =>
      rcases List.mem_cons.mp hx with h1 | h2
      · subst h1
        simp [hres]
      · exact ih hc x h2

/-- Tokens with a binding are keys of the registry list. -/
theorem regLookup_isSome_mem_keys {R : Registry} {x : Token}
    (h : (regLookup R x).isSome) : x ∈ R.map Prod.fst := by
  induction R with
  | nil => simp [regLookup] at h
  | cons e rest ih =>
    obtain ⟨u, r⟩ := e
    by_cases he : u = x
    · subst he
      simp
    · rw [show regLookup ((u, r) :: rest) x = regLookup rest x from
        if_neg he] at h
      simp [ih h]

/-- A duplicate-free list of registered tokens is no longer than the
registry. -/
theorem chain_length_le {R : Registry} {l : List Token}
    (hnd : l.Nodup) (hsub : ∀ x ∈ l, (regLookup R x).isSome) :
    l.length ≤ R.length := by
  have h1 : l.toFinset.card = l.length := List.toFinset_card_of_nodup hnd
  have h2 : l.toFinset ⊆ (R.map Prod.fst).toFinset := by
    intro x hx
    simp only [List.mem_toFinset] at hx ⊢
    exact regLookup_isSome_mem_keys (hsub x hx)
  have h3 := Finset.card_le_card h2
  have h4 := (R.map Prod.fst).toFinset_card_le
  simp only [List.length_map] at h4
  omega

/-- Fuel adequacy: on an acyclic registry the search never runs out
of fuel exceeding the number of registered bindings. -/
theorem visit_isSome_of_acyclic {R : Registry} (hA : Acyclic R)
    {fuel : Nat} (hfuel : R.length < fuel) (token : Token)
    (reqs : List Token) : (visit R token fuel reqs).isSome := by
  cases hv : visit R token fuel reqs with
  | some o => rfl
  | none =>
    obtain ⟨l, hc, hl⟩ := visit_none_chain R token fuel reqs hv
    have hle := chain_length_le (DChain.nodup hA hc) (DChain.subset_keys hc)
    omega

/-- Dependency chains compose end to end. -/
theorem EdgeChain.append {R : Registry} {a b c : Token} {l1 l2 : List Token}
    (h1 : EdgeChain R a l1 b) (h2 : EdgeChain R b l2 c) :
    EdgeChain R a (l1 ++ b :: l2) c := by
  induction h1 with
  | single h => exact EdgeChain.cons h h2
  | @cons a2 b2 c2 l h hc ih =>
    rw [List.cons_append]
    exact EdgeChain.cons h (ih h2)

/-- Dependency chains split at any intermediate node. -/
theorem EdgeChain.split {R : Registry} {a c t : Token} {l : List Token}
    (h : EdgeChain R a l c) (ht : t ∈ l) :
    ∃ l1 l2, EdgeChain R a l1 t ∧ EdgeChain R t l2 c ∧
      l1.length + l2.length + 1 = l.length := by
  induction h with
  | single h =>
    simp at ht
  | @cons a b c l h hc ih =>
    rcases List.mem_cons.mp ht with h1 | h2
    · subst h1
      exact ⟨[], l, EdgeChain.single h, hc, by simp⟩
    · obtain ⟨l1, l2, hA1, hA2, hlen⟩ := ih h2
      refine ⟨b :: l1, l2, EdgeChain.cons h hA1, hA2, ?_⟩
      simp only [List.length_cons]
      omega

/-- A cycle based at a node yields one whose interior avoids it. -/
theorem cycle_avoid {R : Registry} (t : Token) :
    ∀ (n : Nat) (l : List Token), l.length ≤ n → EdgeChain R t l t →
      ∃ l', EdgeChain R t l' t ∧ t ∉ l' := by
  intro n
  induction n with
  | zero =>
    intro l hl hc
    have hnil : l = [] := List.length_eq_zero.mp (Nat.le_zero.mp hl)
    subst hnil
    exact ⟨[], hc, by simp⟩
  | succ n ih =>
    intro l hl hc
    by_cases ht : t ∈ l
    · obtain ⟨l1, l2, h1, h2, hlen⟩ := EdgeChain.split hc ht
      exact ih l1 (by omega) h1
    · exact ⟨l, hc, ht⟩

/-- Rotation: a cycle touching `t` gives a cycle based at `t` . -/
theorem cycle_rotate {R : Registry} {u t : Token} {l : List Token}
    (hc : EdgeChain R u l u) (ht : t = u ∨ t ∈ l) :
    ∃ l', EdgeChain R t l' t := by
  rcases ht with h1 | h2
  · subst h1
    exact ⟨l, hc⟩
  · obtain ⟨l1, l2, hA1, hA2, _⟩ := EdgeChain.split hc h2
    exact ⟨l2 ++ u :: l1, EdgeChain.append hA2 hA1⟩

/-- Edges not sourced at the new binding transfer off it. -/
theorem edgeStep_cons {R : Registry} {t x y : Token} {res : Resolver}
    (hx : x ≠ t) : EdgeStep ((t, res) :: R) x y ↔ EdgeStep R x y := by
  unfold EdgeStep
  rw [show regLookup ((t, res) :: R) x = regLookup R x from
    if_neg fun h => hx h.symm]

/-- Chains avoiding the new binding transfer off it. -/
theorem edgeChain_cons {R : Registry} {t : Token} {res : Resolver}
    {a c : Token} {l : List Token} (h : EdgeChain ((t, res) :: R) a l c)
    (ha : a ≠ t) (htl : t ∉ l) : EdgeChain R a l c := by
  induction h with
  | single h0 => exact EdgeChain.single ((edgeStep_cons ha).mp h0)
  | @cons a b c l h0 hc ih =>
    have hb : b ≠ t := fun hbt => htl (hbt ▸ List.mem_cons_self b l)
    have htl2 : t ∉ l := fun hm => htl (List.mem_cons_of_mem b hm)
    exact EdgeChain.cons ((edgeStep_cons ha).mp h0) (ih hb htl2)

/-- The resolver constructed for a factory wraps that factory. -/
theorem createResolver_factory (f : IFactory) :
    (createResolver f).factory = f := by
  unfold createResolver
  split <;> rfl

/-- A dependency chain into the candidate token, entered from any
position of a dependency list, yields a requires path. -/
theorem edgeChain_pathFrom {R : Registry} {b t : Token} {l : List Token}
    (h : EdgeChain R b l t) :
    ∀ (reqs : List Token) (i : Nat), reqs[i]? = some b →
      ∃ is p, PathFrom R t reqs is p := by
  induction h with
  | @single a c h0 =>
    intro reqs i hi
    by_cases hat : a = c
    · subst hat
      exact ⟨[i], [a], PathFrom.hit hi⟩
    · obtain ⟨res, hres, hmem⟩ := h0
      obtain ⟨j, hj⟩ := List.getElem?_of_mem hmem
      exact ⟨[i, j], [a, c], PathFrom.descend hi hat hres (PathFrom.hit hj)⟩
  | @cons a b2 c l h0 hc ih =>
    intro reqs i hi
    by_cases hat : a = c
    · subst hat
      exact ⟨[i], [a], PathFrom.hit hi⟩
    · obtain ⟨res, hres, hmem⟩ := h0
      obtain ⟨j, hj⟩ := List.getElem?_of_mem hmem
      obtain ⟨is, p, hp⟩ := ih res.factory.requires j hj
      exact ⟨i :: is, a :: p, PathFrom.descend hi hat hres hp⟩

/-- Registering a token whose factory admits no requires path back to
it preserves acyclicity of the registry. -/
theorem acyclic_insert {R : Registry} {t : Token} {f : IFactory}
    (hA : Acyclic R)
    (hnp : ∀ is p, ¬ PathFrom R t f.requires is p) :
    Acyclic ((t, createResolver f) :: R) := by
  intro u l hc
  by_cases hu : t = u ∨ t ∈ l
  · obtain ⟨l0, hc0⟩ := cycle_rotate hc hu
    obtain ⟨l1, hc1, hnotin⟩ := cycle_avoid t l0.length l0 le_rfl hc0
    have hlookt : regLookup ((t, createResolver f) :: R) t
        = some (createResolver f) := if_pos rfl
    cases hc1 with
    | single h0 =>
      obtain ⟨res, hres, hmem⟩ := h0
      rw [hlookt] at hres
      injection hres with hres2
      subst hres2
      rw [createResolver_factory] at hmem
      obtain ⟨j, hj⟩ := List.getElem?_of_mem hmem
      exact hnp [j] [t] (PathFrom.hit hj)
    | @cons _ b _ l2 h0 hc2 =>
      obtain ⟨res, hres, hmem⟩ := h0
      rw [hlookt] at hres
      injection hres with hres2
      subst hres2
      rw [createResolver_factory] at hmem
      have hb : b ≠ t := fun hbt => hnotin (hbt ▸ List.mem_cons_self b l2)
      have htl2 : t ∉ l2 := fun hm => hnotin (List.mem_cons_of_mem b hm)
      have hc3 : EdgeChain R b l2 t := edgeChain_cons hc2 hb htl2
      obtain ⟨j, hj⟩ := List.getElem?_of_mem hmem
      obtain ⟨is, p, hp⟩ := edgeChain_pathFrom hc3 f.requires j hj
      exact hnp is p hp
  · push_neg at hu
    exact hA u l (edgeChain_cons hc (fun h => hu.1 h.symm) hu.2)

/-- Every registry reachable through `register` is acyclic. -/
theorem reachable_acyclic {R : Registry} (h : Reachable R) : Acyclic R := by
  induction h with
  | empty =>
    intro u l hc
    cases hc with
    | single h0 =>
      obtain ⟨res, hres, _⟩ := h0
      simp [regLookup] at hres
    | cons h0 hc2 =>
      obtain ⟨res, hres, _⟩ := h0
      simp [regLookup] at hres
  | @step R R' t f d hR hreg ih =>
    unfold Container.register at hreg
    by_cases hdup : (regLookup R t).isSome
    · rw [if_pos hdup] at hreg
      simp only [Option.some.injEq, Prod.mk.injEq] at hreg
      obtain ⟨h1, _⟩ := hreg
      subst h1
      exact ih
    · rw [if_neg hdup] at hreg
      cases hfc : findCycle R t f with
      | none =>
        rw [hfc] at hreg
        exact absurd hreg (by simp)
      | some cycle =>
        simp only [hfc] at hreg
        by_cases hlen : cycle.length > 0
        · rw [if_pos hlen] at hreg
          simp only [Option.some.injEq, Prod.mk.injEq] at hreg
          obtain ⟨h1, _⟩ := hreg
          subst h1
          exact ih
        · rw [if_neg hlen] at hreg
          simp only [Option.some.injEq, Prod.mk.injEq] at hreg
          obtain ⟨h1, _⟩ := hreg
          subst h1
          have hcnil : cycle = [] := List.length_eq_zero.mp (by omega)
          subst hcnil
          have hnp : ∀ is p, ¬ PathFrom R t f.requires is p := by
            unfold findCycle at hfc
            cases hv : visit R t (cycleFuel R) f.requires with
            | none =>
              rw [hv] at hfc
              exact absurd hfc (by simp)
            | some o =>
              cases o with
              | none => exact (visit_complete_min R t (cycleFuel R)).1 _ hv
              | some path =>
                rw [hv] at hfc
                have hpath : path = [] := by
                  have h2 : (some path : Option (List Token)) = some [] := hfc
                  simpa using h2
                subst hpath
                obtain ⟨is0, hp0, _⟩ :=
                  (visit_complete_min R t (cycleFuel R)).2 _ _ hv
                exact (hp0.ne_nil rfl).elim
          exact acyclic_insert ih hnp

/-- C10: for every registry reachable from an empty container by
register calls, the cycle-detection traversal terminates on every
candidate token and factory — there is adequate fuel, and the
register embedding never returns the divergence marker. -/
theorem claim10_cycle_search_terminates {R : Registry} (hR : Reachable R)
    (t : Token) (f : IFactory) :
    (∃ fuel, (visit R t fuel f.requires).isSome) ∧
    Container.register R t f ≠ none := by
  have hA := reachable_acyclic hR
  have h1 : (visit R t (cycleFuel R) f.requires).isSome :=
    visit_isSome_of_acyclic hA (by unfold cycleFuel; omega) t f.requires
  refine ⟨⟨cycleFuel R, h1⟩, ?_⟩
  unfold Container.register
  by_cases hdup : (regLookup R t).isSome
  · rw [if_pos hdup]
    simp
  · rw [if_neg hdup]
    obtain ⟨o, ho⟩ := Option.isSome_iff_exists.mp h1
    have hfc : ∃ c, findCycle R t f = some c := by
      unfold findCycle
      rw [ho]
      cases o with
      | none => exact ⟨[], rfl⟩
      | some path => exact ⟨path, rfl⟩
    obtain ⟨c, hc⟩ := hfc
    simp only [hc]
    split <;> simp

/-- C10 witness: the registry holding A (requires B), reached by one
successful register call, admits adequate fuel for the candidate
B (requires A), and register answers on it. -/
theorem claim10_witness :
    (∃ fuel, (visit exRegA exTokenB fuel exFacB.requires).isSome) ∧
    Container.register exRegA exTokenB exFacB ≠ none :=
  claim10_cycle_search_terminates
    (Reachable.step Reachable.empty
      (show Container.register [] exTokenA exFacA = some (exRegA, none) from rfl))
    exTokenB exFacB

/-- C4: registering a factory that would close a requires cycle back
to its token is rejected: register returns normally with a cycle
diagnostic naming the token, adds no binding, leaves the registry
unchanged, and the token stays unregistered. -/
theorem claim4_cycle_registration_rejected (R : Registry) (t : Token)
    (f : IFactory) (hure : regLookup R t = none)
    (hpath : ∃ is p, PathFrom R t f.requires is p)
    (hfuel : (visit R t (cycleFuel R) f.requires).isSome) :
    (∃ p, Container.register R t f = some (R, some (Diag.cycleReg t.name p))) ∧
    Container.isRegistered R t = false := by
  obtain ⟨o, ho⟩ := Option.isSome_iff_exists.mp hfuel
  cases o with
  | none =>
    obtain ⟨is, p, hp⟩ := hpath
    exact absurd hp ((visit_complete_min R t (cycleFuel R)).1 _ ho is p)
  | some path =>
    obtain ⟨is, hp, _⟩ := (visit_complete_min R t (cycleFuel R)).2 _ _ ho
    have hfc : findCycle R t f = some path := by
      unfold findCycle
      rw [ho]
    have hlen : path.length > 0 := by
      cases hpath2 : path with
      | nil => exact (hp.ne_nil hpath2).elim
      | cons x xs => simp
    constructor
    · refine ⟨path, ?_⟩
      unfold Container.register
      rw [if_neg (by simp [hure])]
      simp only [hfc]
      rw [if_pos hlen]
    · unfold Container.isRegistered
      rw [hure]
      rfl

/-- C4 witness: after registering A (requires B), registering
B (requires A) is rejected with a cycle diagnostic and B stays
unregistered. -/
theorem claim4_witness :
    (∃ p, Container.register exRegA exTokenB exFacB
      = some (exRegA, some (Diag.cycleReg "B" p))) ∧
    Container.isRegistered exRegA exTokenB = false :=
  claim4_cycle_registration_rejected exRegA exTokenB exFacB rfl
    ⟨[0, 0], [exTokenA, exTokenB],
      PathFrom.descend (i := 0) rfl (by decide) rfl (PathFrom.hit (i := 0) rfl)⟩
    rfl

end PhosphorDI
